import Mathlib

/-!
Verification of the controllable concurrent extraction pipeline implemented in
`src/process_pdfs.py` and `src/app.py`.

The development is a shallow embedding: the pure parts of the Python code are
translated to Lean functions, the stateful worker loops to explicit state
passing, and external effects (the HTTP call, thread completion order, the
control flags read by `_wait_if_paused`, the random jitter) to oracle
parameters.  Every definition follows the corresponding source function; line
references point into `src/process_pdfs.py` unless marked `app.py`.
-/

namespace OCRPipeline

/-- Token-usage counters extracted from a service response
(`{"prompt": ..., "completion": ..., "total": ...}`, lines 164-170 / 290-296). -/
structure Usage where
  prompt : Nat
  completion : Nat
  total : Nat
  deriving DecidableEq, Repr

/-- A table cell as seen by the repair loop of `parse_model_output_to_content`
(line 346): `none` models Python `None`; `some s` models any other value whose
`str()` rendering is `s`. -/
abbrev Cell := Option String

/-- Embeds `str(cell) if cell is not None else ""` (line 346). -/
def cellStr (c : Cell) : String := c.getD ""

/-- One entry of the `rows` field of a `table` node.  `some cells` models a
Python list or tuple row; `none` models a row value that is not a list or
tuple (such rows hit the `continue` at line 349). -/
abbrev Row := Option (List Cell)

/-- Embeds the padding/truncation of one row to the standard column count
(lines 356-358): `while len(row) < standard_cols: row.append("")` followed by
`row[:standard_cols]`. -/
def padTrunc (c : Nat) (r : List String) : List String :=
  (r ++ List.replicate (c - r.length) "").take c

/-- Embeds the `normalized_rows` accumulation (lines 343-349): list/tuple rows
are kept with each cell coerced by `cellStr`; any other row is skipped. -/
def normRows (rows : List Row) : List (List String) :=
  rows.filterMap (fun r => r.map (fun cs => cs.map cellStr))

/-- Embeds the table-repair block of `parse_model_output_to_content`
(lines 339-360).  The guard `if rows and len(rows) > 0` leaves empty `rows`
untouched; if no row is a list or tuple, `normalized_rows` is empty and the
guard `if normalized_rows` leaves the original `rows` untouched; otherwise all
rows are normalized to the column count of the first normalized row. -/
def repairRows (rows : List Row) : List Row :=
  if rows.isEmpty then rows
  else
    match normRows rows with
    | [] => rows
    | r0 :: rest =>
      (r0 :: rest).map (fun r => some ((padTrunc r0.length r).map some))

/-- One item of the parsed `content` list (the dictionaries produced by the
JSON stages of `parse_model_output_to_content`).  `other` stands for any item
that is not a dict with `type == "table"` (lines 339, 361 append such items
unchanged). -/
inductive ContentItem where
  | heading (level : Nat) (text : String)
  | paragraph (text : String)
  | listNode (items : List String)
  | tableNode (rows : List Row)
  | other
  deriving DecidableEq, Repr

/-- Embeds one iteration of the validation loop (lines 338-361): table nodes
get their rows repaired, every other item passes through unchanged. -/
def validateItem : ContentItem → ContentItem
  | .tableNode rows => .tableNode (repairRows rows)
  | it => it

/-- Embeds the validation loop of `parse_model_output_to_content`
(lines 337-361): `validated_list` receives exactly one entry per entry of
`content_list`. -/
def validateContent (contentList : List ContentItem) : List ContentItem :=
  contentList.map validateItem

/-- Splitting a character list on a separator character, with the semantics
of Python `str.split(sep)` for a one-character separator (the empty input
yields one empty field; a trailing separator yields a trailing empty field). -/
def splitOnChar (sep : Char) : List Char → List (List Char)
  | [] => [[]]
  | c :: cs =>
    let r := splitOnChar sep cs
    if c = sep then [] :: r
    else
      match r with
      | [] => [[c]]
      | l :: ls => (c :: l) :: ls

/-- Python `str.strip()`: drop leading and trailing whitespace. -/
def trimChars (cs : List Char) : List Char :=
  ((cs.dropWhile Char.isWhitespace).reverse.dropWhile Char.isWhitespace).reverse

/-- Embeds `[ln.strip() for ln in text.splitlines() if ln.strip()]`
(lines 365, 374, 441); `splitlines` is modelled as splitting on newline
characters. -/
def nonBlankLines (text : String) : List String :=
  ((splitOnChar '\n' text.toList).map (fun cs => String.mk (trimChars cs))).filter
    (fun l => l ≠ "")

/-- Embeds the tail of `parse_model_output_to_content` (lines 336-370).  The
three structured JSON attempts (lines 304-334) are embedded as the
`contentList` argument: the `content` list they produced, `[]` when every
attempt failed.  After validation, an empty result falls back to one
paragraph node per non-blank line of the raw text. -/
def parseContentTail (contentList : List ContentItem) (text : String) :
    List ContentItem :=
  let validated := validateContent contentList
  if validated.isEmpty then (nonBlankLines text).map ContentItem.paragraph
  else validated

/-- Embeds `set(c) <= set("-:")` (line 383): every character of the cell is a
dash or a colon (an empty cell also qualifies). -/
def isSepCell (c : String) : Bool :=
  c.toList.all (fun ch => ch = '-' || ch = ':')

/-- Embeds Python `str.strip("|")`: remove every leading and trailing pipe
character (line 380). -/
def stripPipes (s : String) : String :=
  String.mk (((s.toList.dropWhile (· = '|')).reverse.dropWhile (· = '|')).reverse)

/-- Embeds `parse_markdown_table` (lines 373-384).  `startswith("|")` and
`endswith("|")` are the head and last characters; `split("|")` is the
one-character split. -/
def parseMarkdownTable (md : String) : List (List String) :=
  let lines := nonBlankLines md
  let tableLines := lines.filter
    (fun ln => ln.toList.head? = some '|' && ln.toList.getLast? = some '|')
  if tableLines.isEmpty then []
  else
    let rows := tableLines.map (fun ln =>
      (splitOnChar '|' (stripPipes ln).toList).map (fun p => String.mk (trimChars p)))
    rows.filter (fun r => ¬ r.all (fun c => isSepCell c))

/-- Embeds `parse_model_output_to_tables` (lines 387-447).  The three JSON
attempts (lines 390-432) are embedded as the `jsonTables` argument: the table
list they returned, `[]` when they all failed or collected no tables (the code
returns from a JSON branch only `if tables:`).  Afterwards the Markdown and
the comma-separated fallbacks run. -/
def parseTables (jsonTables : List (String × List Row)) (text : String) :
    List (String × List Row) :=
  if ¬ jsonTables.isEmpty then jsonTables
  else
    let md := parseMarkdownTable text
    if ¬ md.isEmpty then [("Table 1", md.map (fun r => some (r.map some)))]
    else
      match nonBlankLines text with
      | [] => []
      | l0 :: rest =>
        if l0.toList.contains ',' then
          [("Table 1", (l0 :: rest).map (fun ln =>
            some (((splitOnChar ',' ln.toList).map String.mk).map some)))]
        else []

/-- The visible result of one extraction call as seen by `_process_one`
(lines 682-701 / 871-889): either the call chain returned raw text plus a
usage dict, or some exception was raised and caught (its `str()` message). -/
inductive ExtractRes where
  | ok (raw : String) (usage : Usage)
  | exn (msg : String)
  deriving DecidableEq, Repr

/-- Embeds the text-mode `_process_one` (lines 693-701): the outcome tuple
minus the `img_path` component, i.e. `(err, result_data, usage)`.  The usage
component is `none` for the empty dict `{}` returned on exception.  The JSON
stages of the parser are embedded as the function `structuredContent` from raw
text to the parsed `content` list. -/
def processOneText (structuredContent : String → List ContentItem) :
    ExtractRes → Option String × Option (List ContentItem) × Option Usage
  | .exn m => (some m, none, none)
  | .ok raw u =>
    let cl := parseContentTail (structuredContent raw) raw
    if cl.isEmpty then (some "no_content", none, some u)
    else (none, some cl, some u)

/-- Embeds the table-mode `_process_one` (lines 682-690), analogous to
`processOneText`. -/
def processOneTable (structuredTables : String → List (String × List Row)) :
    ExtractRes → Option String × Option (List (String × List Row)) × Option Usage
  | .exn m => (some m, none, none)
  | .ok raw u =>
    let ts := parseTables (structuredTables raw) raw
    if ts.isEmpty then (some "no_tables", none, some u)
    else (none, some ts, some u)

/-- One element of the key produced by `natural_key` (lines 627-632):
`int(p) if p.isdigit() else p.lower()`.  String parts are kept as character
lists (Python compares strings by code point, lexicographically). -/
inductive KeyPart where
  | str (s : List Char)
  | num (n : Nat)
  deriving DecidableEq, Repr

/-- Numeric value of a run of decimal digits, as `int(p)` computes it. -/
def digitsToNat (ds : List Char) : Nat :=
  ds.foldl (fun n c => 10 * n + (c.toNat - '0'.toNat)) 0

/-- Accumulator of the scanner behind `natural_key`: either collecting a
non-digit segment (characters in reverse) or the value of a digit run. -/
inductive KeyAcc where
  | strAcc (cs : List Char)
  | numAcc (n : Nat)

/-- Character-level scanner reproducing `re.split(r"(\d+)", name)` followed by
the per-part conversion of `natural_key`: the split alternates (possibly
empty) non-digit segments with maximal digit runs, beginning and ending with a
segment; segments are lowercased, digit runs become numbers. -/
def natKeyGo : List Char → KeyAcc → List KeyPart
  | [], .strAcc acc => [.str (acc.reverse.map Char.toLower)]
  | [], .numAcc n => [.num n, .str []]
  | c :: cs, .strAcc acc =>
    if c.isDigit then
      .str (acc.reverse.map Char.toLower) :: natKeyGo cs (.numAcc (c.toNat - '0'.toNat))
    else natKeyGo cs (.strAcc (c :: acc))
  | c :: cs, .numAcc n =>
    if c.isDigit then natKeyGo cs (.numAcc (10 * n + (c.toNat - '0'.toNat)))
    else .num n :: natKeyGo cs (.strAcc [c])

/-- Embeds `natural_key` (lines 627-632): digit runs compare numerically, the
remaining segments case-insensitively. -/
def natural_key (name : String) : List KeyPart :=
  natKeyGo name.toList (.strAcc [])

/-- Strict lexicographic order on character lists, as Python compares the
lowercased string parts of two keys. -/
def charListLt : List Char → List Char → Bool
  | _, [] => false
  | [], _ :: _ => true
  | a :: as, b :: bs => a < b || (a = b && charListLt as bs)

/-- Order on individual key parts.  Aligned parts of two `natural_key` values
always have the same constructor (both keys alternate string and number parts
starting with a string part), so the two mixed cases are never exercised by
the sort; they are fixed arbitrarily to keep the order total. -/
def keyPartLt : KeyPart → KeyPart → Bool
  | .str a, .str b => charListLt a b
  | .num a, .num b => a < b
  | .num _, .str _ => true
  | .str _, .num _ => false

/-- Strict lexicographic order on key lists, as Python compares two
`natural_key` results (element-wise, a strict prefix being smaller). -/
def keyListLt : List KeyPart → List KeyPart → Bool
  | _, [] => false
  | [], _ :: _ => true
  | a :: as, b :: bs => keyPartLt a b || (a = b && keyListLt as bs)

/-- The non-strict comparison under which `sorted(..., key=natural_key)`
orders names: `a` may precede `b` unless the key of `b` is strictly below the
key of `a`. -/
def natLe (a b : String) : Bool := ! keyListLt (natural_key b) (natural_key a)

/-- Embeds line 862 of `process_images`:
`sorted(list(image_paths), key=lambda p: natural_key(p.name))` (a stable sort,
modelled by stable merge sort; paths are represented by their names). -/
def sortImagesNatural (names : List String) : List String :=
  names.mergeSort natLe

/-- Embeds the lookup in the order map of lines 677/863 and the sort key of
lines 784/961: `order_map = {p.name: idx for idx, p in enumerate(...)}` and
`order_map.get(x[0], 10**9)`.  For duplicate-free name lists the dict lookup
is the index of the first (only) occurrence. -/
def orderKey (names : List String) (nm : String) : Nat :=
  match names.findIdx? (fun n => n = nm) with
  | some i => i
  | none => 10 ^ 9

/-- Embeds line 784/961:
`sorted(image_results, key=lambda x: order_map.get(x[0], 10**9))`. -/
def sortResults {α : Type} (names : List String) (results : List (String × α)) :
    List (String × α) :=
  results.mergeSort (fun a b => orderKey names a.1 ≤ orderKey names b.1)

/-- One work item together with its predetermined `_process_one` outcome
`(err, result_data, usage)`.  The data component is the Python value
`result_data`, with both `None` and an empty list collapsed to `[]` (both are
falsy at the `if result_data:` checks, lines 749/777/931/954); the usage
component is `none` for the empty dict `{}` (falsy at `if usage_delta:`,
lines 739/767/925/948). -/
structure WorkItem (α : Type) where
  name : String
  err : Option String
  data : List α
  usage : Option Usage
  deriving DecidableEq, Repr

/-- The three progress events of `progress_cb` (lines 668-672, 744/772,
781): `start {total, embedded, pages}`, `step {done, total, image, error,
usage}`, `finish {done, total, usage}`. -/
inductive Event where
  | start (total embedded pages : Nat)
  | step (done total : Nat) (image : String) (error : Option String) (usage : Option Usage)
  | finish (done total : Nat) (usage : Usage)
  deriving DecidableEq, Repr

/-- Embeds the usage accumulation of lines 739-742/767-770: skipped entirely
for the falsy `{}` delta, otherwise fieldwise addition. -/
def addUsage (u : Usage) : Option Usage → Usage
  | none => u
  | some d => ⟨u.prompt + d.prompt, u.completion + d.completion, u.total + d.total⟩

/-- Embeds the success check of lines 745-750/773-778: the result is appended
to `image_results` only when the error slot is empty and `result_data` is
truthy. -/
def isSuccess {α : Type} (it : WorkItem α) : Prop := it.err = none ∧ it.data ≠ []

instance {α : Type} [DecidableEq α] (it : WorkItem α) : Decidable (isSuccess it) := by
  unfold isSuccess; infer_instance

/-- The successful outcomes of a list of items, in list order, as
`image_results` collects them (`(img_path.name, result_data)`). -/
def successes {α : Type} [DecidableEq α] (items : List (WorkItem α)) :
    List (String × List α) :=
  items.filterMap (fun it => if isSuccess it then some (it.name, it.data) else none)

/-- Result of one driver run: the `done` counter, `usage_totals`,
`image_results` and the emitted progress events. -/
structure RunOut (α : Type) where
  done : Nat
  usageTotals : Usage
  results : List (String × List α)
  events : List Event
  deriving DecidableEq, Repr

/-- Embeds the sequential (`max_workers <= 1`) loop of `process_pdf`
(lines 758-781): for each item, skip it when already seen, stop when
`_wait_if_paused()` reports the stop flag (the gate oracle gives the result of
the i-th call), otherwise process it, update counters and emit a `step`; at
the end emit `finish`.  `_wait_if_paused` returns `true` exactly when it
observed `stop` (it loops internally while only `paused` is set, which is
invisible in the produced values). -/
def runSeqAux {α : Type} [DecidableEq α] (total : Nat) (gate : Nat → Bool) :
    List (WorkItem α) → List String → Nat → Nat → Usage →
    List (String × List α) → List Event → RunOut α
  | [], _, _, done, usage, results, events =>
    ⟨done, usage, results, events ++ [.finish done total usage]⟩
  | it :: rest, seen, gi, done, usage, results, events =>
    if it.name ∈ seen then runSeqAux total gate rest seen gi done usage results events
    else if gate gi then
      ⟨done, usage, results, events ++ [.finish done total usage]⟩
    else
      let done' := done + 1
      let usage' := addUsage usage it.usage
      let events' := events ++ [.step done' total it.name it.err it.usage]
      let results' := if isSuccess it then results ++ [(it.name, it.data)] else results
      runSeqAux total gate rest (it.name :: seen) (gi + 1) done' usage' results' events'

/-- The sequential driver of `process_pdf` from the `start` event (line 669)
through the `finish` event (line 781), with `total = len(images_to_process)`
(line 667 via 675). -/
def runSeq {α : Type} [DecidableEq α] (items : List (WorkItem α))
    (embedded pages : Nat) (gate : Nat → Bool) : RunOut α :=
  runSeqAux items.length gate items [] 0 0 ⟨0, 0, 0⟩ []
    [.start items.length embedded pages]

/-- State returned by the initial-submission loop of the concurrent path. -/
structure FillOut (α : Type) where
  pending : List (WorkItem α)
  running : List (WorkItem α)
  gi : Nat
  dlog : List (Nat × String)
  stopped : Bool

/-- Embeds the initial-submission loop of the concurrent path
(lines 724-730): while fewer than `max_workers` futures are running, consult
the gate; on stop break, otherwise pull the next image and submit it.  The
`dlog` component is an observation log recording, for every submission, the
index of the gate check that immediately preceded it. -/
def fillLoop {α : Type} (w : Nat) (gate : Nat → Bool) :
    List (WorkItem α) → List (WorkItem α) → Nat → List (Nat × String) → FillOut α
  | [], running, gi, dlog =>
    if running.length < w then
      if gate gi then ⟨[], running, gi + 1, dlog, true⟩
      else ⟨[], running, gi + 1, dlog, false⟩
    else ⟨[], running, gi, dlog, false⟩
  | p :: ps, running, gi, dlog =>
    if running.length < w then
      if gate gi then ⟨p :: ps, running, gi + 1, dlog, true⟩
      else fillLoop w gate ps (running ++ [p]) (gi + 1) (dlog ++ [(gi, p.name)])
    else ⟨p :: ps, running, gi, dlog, false⟩

/-- Result of a concurrent run, with the submission log kept for the
statements about dispatch suppression. -/
structure ConcOut (α : Type) where
  done : Nat
  usageTotals : Usage
  results : List (String × List α)
  events : List Event
  dlog : List (Nat × String)
  deriving DecidableEq, Repr

/-- Embeds the completion-processing loop of the concurrent path
(lines 731-757).  The driver thread handles completed futures one at a time
(the `for fut in done_set` body runs sequentially and re-checks the gate after
each future, so a multi-element `done_set` behaves like a sequence of
singleton waits); the oracle `pick` chooses which in-flight future completes
next.  For each completion: update counters, emit a `step`, record a success;
then consult the gate — on stop, clear the in-flight set and emit `finish`
(in-flight results are dropped), otherwise submit the next pending image if
any. -/
def procLoop {α : Type} [DecidableEq α] (total : Nat) (gate : Nat → Bool)
    (pick : Nat → Nat) :
    Nat → Nat → Nat → Usage → List (String × List α) → List Event →
    List (Nat × String) → List (WorkItem α) → List (WorkItem α) → ConcOut α
  | _, _, done, usage, results, events, dlog, _, [] =>
    ⟨done, usage, results, events ++ [.finish done total usage], dlog⟩
  | t, gi, done, usage, results, events, dlog, pending, r0 :: rs =>
    let run : List (WorkItem α) := r0 :: rs
    let i := pick t % run.length
    let it := run.get ⟨i, Nat.mod_lt _ (Nat.succ_pos rs.length)⟩
    let run' := run.eraseIdx i
    let done' := done + 1
    let usage' := addUsage usage it.usage
    let events' := events ++ [.step done' total it.name it.err it.usage]
    let results' := if isSuccess it then results ++ [(it.name, it.data)] else results
    if gate gi then
      ⟨done', usage', results', events' ++ [.finish done' total usage'], dlog⟩
    else
      match pending with
      | [] => procLoop total gate pick (t + 1) (gi + 1) done' usage' results' events' dlog [] run'
      | p :: ps =>
        procLoop total gate pick (t + 1) (gi + 1) done' usage' results' events'
          (dlog ++ [(gi, p.name)]) ps (run' ++ [p])
termination_by _ _ _ _ _ _ _ pending running => pending.length + running.length
decreasing_by
  all_goals simp [List.length_eraseIdx, Nat.mod_lt, Nat.succ_pos]

/-- The concurrent (`max_workers > 1`) driver of `process_pdf`
(lines 719-781): the `start` event, the initial submissions, the completion
loop, the `finish` event.  A stop observed during initial submission only
breaks that loop; the completion loop still drains the already-submitted
futures (source line 731 runs unconditionally). -/
def runConc {α : Type} [DecidableEq α] (w : Nat) (items : List (WorkItem α))
    (embedded pages : Nat) (gate : Nat → Bool) (pick : Nat → Nat) : ConcOut α :=
  let f := fillLoop w gate items [] 0 []
  procLoop items.length gate pick 0 f.gi 0 ⟨0, 0, 0⟩ []
    [.start items.length embedded pages] f.dlog f.pending f.running

/-- Task status values stored in the `TASKS` map of `app.py`. -/
inductive TaskStatus where
  | pending
  | in_progress
  | paused
  | completed
  | failed
  deriving DecidableEq, Repr

/-- The progress-related slice of one `TASKS[task_id]` entry
(app.py lines 101-112). -/
structure TaskState where
  status : TaskStatus
  total : Nat
  done : Nat
  embedded : Nat
  pages : Nat
  errors : List (String × String)
  deriving DecidableEq, Repr

/-- Embeds the progress callback `_cb_pdf` (app.py lines 114-131) applied to
one event.  `x or y` on the numeric fields keeps `x` exactly when it is
non-zero; on `step`, an error is appended only when truthy (non-`None` and
non-empty); on `finish`, `data.get("done", ...) or t["total"]` falls back to
the stored total exactly when the reported count is zero. -/
def applyCb (t : TaskState) : Event → TaskState
  | .start tot emb pg =>
    { t with status := .in_progress, total := tot, embedded := emb, pages := pg }
  | .step d _ img err _ =>
    { t with
      status := .in_progress
      done := d
      errors := match err with
        | some s => if s = "" then t.errors else t.errors ++ [(img, s)]
        | none => t.errors }
  | .finish d _ _ =>
    { t with status := .completed, done := if d = 0 then t.total else d }

/-- The initial `TASKS[task_id]` entry created at upload
(app.py lines 101-112): status pending, zero done, empty error list. -/
def initTask (total embedded pages : Nat) : TaskState :=
  ⟨.pending, total, 0, embedded, pages, []⟩

/-- The per-item error entries a run appends to `TASKS[tid]["errors"]`: one
`{image, error}` entry per item whose outcome carries a truthy error. -/
def errorEntries {α : Type} (items : List (WorkItem α)) : List (String × String) :=
  items.filterMap (fun it =>
    match it.err with
    | some s => if s = "" then none else some (it.name, s)
    | none => none)

/-- Result of one network attempt inside the retry loop of
`call_doubao_extract_text` / `call_doubao_extract_tables` (lines 249-266 /
118-139): a successful response, a transient failure (`ReadTimeout`,
`ConnectTimeout`, `ConnectionError`), or any other `RequestException`. -/
inductive NetAttempt (α : Type) where
  | ok (resp : α)
  | transient (e : String)
  | permanent (e : String)
  deriving DecidableEq, Repr

/-- Trace of the retry loop: how many network attempts ran, the seconds slept
between attempts, and the final outcome (a response or a raised exception). -/
structure RetryTrace (α : Type) where
  attempts : Nat
  sleeps : List ℚ
  outcome : Except String α
  deriving Repr

/-- Embeds `for attempt in range(retries + 1)` of the extraction calls
(lines 249-266; identically 118-139): a successful attempt breaks out, a
transient failure sleeps `(2 ** attempt) + random.uniform(0, 0.5)` and retries
while `attempt < retries` and re-raises afterwards, any other request failure
re-raises at once.  `net` gives the outcome of each attempt and `jitter` the
sampled `random.uniform(0, 0.5)` values. -/
def callLoopAux {α : Type} (retries : Nat) (net : Nat → NetAttempt α)
    (jitter : Nat → ℚ) (attempt : Nat) (sleeps : List ℚ) : RetryTrace α :=
  match net attempt with
  | .ok a => ⟨attempt + 1, sleeps, .ok a⟩
  | .permanent e => ⟨attempt + 1, sleeps, .error e⟩
  | .transient e =>
    if attempt < retries then
      callLoopAux retries net jitter (attempt + 1)
        (sleeps ++ [2 ^ attempt + jitter attempt])
    else ⟨attempt + 1, sleeps, .error e⟩
termination_by retries - attempt

/-- The whole retry loop, started at attempt 0 with no sleeps recorded. -/
def callWithRetry {α : Type} (retries : Nat) (net : Nat → NetAttempt α)
    (jitter : Nat → ℚ) : RetryTrace α :=
  callLoopAux retries net jitter 0 []

/-- Embeds `int(os.getenv("ARK_RETRIES", "3"))` (lines 115/247): the retry
count when the environment does not override it. -/
def defaultRetries : Nat := 3

/-! ### Properties of the table repair (claims C4, C9) -/

theorem padTrunc_length (c : Nat) (r : List String) : (padTrunc c r).length = c := by
  simp [padTrunc]
  omega

theorem padTrunc_of_length_eq {c : Nat} {r : List String} (h : r.length = c) :
    padTrunc c r = r := by
  subst h
  simp [padTrunc]

theorem padTrunc_padTrunc (c : Nat) (r : List String) :
    padTrunc c (padTrunc c r) = padTrunc c r :=
  padTrunc_of_length_eq (padTrunc_length c r)

theorem normRows_map_some_map_some (l : List (List String)) :
    normRows (l.map (fun r => some (r.map some))) = l := by
  simp [normRows, List.filterMap_map, Function.comp_def, List.map_map, cellStr]

theorem normRows_nil_iff {rows : List Row} :
    normRows rows = [] ↔ ∀ r ∈ rows, r = none := by
  constructor
  · intro h r hr
    cases r with
    | none => rfl
    | some cs =>
      exfalso
      have := (List.filterMap_eq_nil_iff.mp h) _ hr
      simp at this
  · intro h
    apply List.filterMap_eq_nil_iff.mpr
    intro r hr
    rw [h r hr]
    rfl

theorem repairRows_eq_of_norm_nil {rows : List Row} (h : normRows rows = []) :
    repairRows rows = rows := by
  by_cases he : rows.isEmpty <;> simp [repairRows, he, h]

theorem repairRows_eq_map {rows : List Row} {r0 : List String} {rest : List (List String)}
    (h : normRows rows = r0 :: rest) :
    repairRows rows = (r0 :: rest).map (fun r => some ((padTrunc r0.length r).map some)) := by
  have he : rows.isEmpty = false := by
    cases rows with
    | nil => simp [normRows] at h
    | cons x xs => rfl
  simp [repairRows, he, h]

theorem repairRows_idem (rows : List Row) :
    repairRows (repairRows rows) = repairRows rows := by
  cases hn : normRows rows with
  | nil => rw [repairRows_eq_of_norm_nil hn, repairRows_eq_of_norm_nil hn]
  | cons r0 rest =>
    rw [repairRows_eq_map hn]
    have hmap : (r0 :: rest).map (fun r => some ((padTrunc r0.length r).map some))
        = ((r0 :: rest).map (padTrunc r0.length)).map (fun r => some (r.map some)) := by
      simp [List.map_map]
    have hnorm : normRows ((r0 :: rest).map (fun r => some ((padTrunc r0.length r).map some)))
        = r0 :: rest.map (padTrunc r0.length) := by
      rw [hmap, normRows_map_some_map_some]
      rw [List.map_cons, padTrunc_of_length_eq rfl]
    rw [repairRows_eq_map hnorm]
    simp only [List.map_cons, List.map_map, List.cons.injEq, true_and]
    apply List.map_congr_left
    intro r _
    simp [Function.comp_def, padTrunc_padTrunc]

theorem repairRows_uniform_lengths {rows : List Row} :
    ∀ r ∈ repairRows rows, ∀ r0, (repairRows rows).head? = some r0 →
      ∀ ls ls0, r = some ls → r0 = some ls0 → ls.length = ls0.length := by
  cases hn : normRows rows with
  | nil =>
    rw [repairRows_eq_of_norm_nil hn]
    intro r hr r0 _ ls ls0 hls _
    exfalso
    have := normRows_nil_iff.mp hn r hr
    simp [hls] at this
  | cons q0 rest =>
    rw [repairRows_eq_map hn]
    intro r hr r0 h0 ls ls0 hls hls0
    simp only [List.mem_map] at hr
    obtain ⟨x, _, hx⟩ := hr
    rw [← hx] at hls
    simp only [Option.some.injEq] at hls
    have hlen : ls.length = q0.length := by
      rw [← hls]
      simp [padTrunc_length]
    simp only [List.map_cons, List.head?_cons, Option.some.injEq] at h0
    rw [← h0] at hls0
    simp only [Option.some.injEq] at hls0
    have hlen0 : ls0.length = q0.length := by
      rw [← hls0]
      simp [padTrunc_length]
    rw [hlen, hlen0]

/-- C4: Table repair is idempotent and normalizing: for any table T,
repair(repair(T)) equals repair(T); after repair every (list) row has the
length of the first row (short rows padded with empty strings, long rows
truncated); and repairing `[["a","b","c"],["1","2"]]` yields
`[["a","b","c"],["1","2",""]]`. -/
theorem C4_repair_idempotent_normalizing :
    (∀ rows : List Row, repairRows (repairRows rows) = repairRows rows) ∧
    (∀ rows : List Row, ∀ r ∈ repairRows rows, ∀ r0, (repairRows rows).head? = some r0 →
      ∀ ls ls0, r = some ls → r0 = some ls0 → ls.length = ls0.length) ∧
    repairRows [some [some "a", some "b", some "c"], some [some "1", some "2"]] =
      [some [some "a", some "b", some "c"], some [some "1", some "2", some ""]] :=
  ⟨repairRows_idem, fun _ => repairRows_uniform_lengths, by decide⟩

/-- Witness for C4: the row-length conjunct applied to a concrete repaired
table. -/
theorem C4_repair_idempotent_normalizing_witness :
    (some [some "1"] : Row) ∈ repairRows [some [some "a"], some [some "1"]] ∧
    ([some "1"] : List Cell).length = ([some "a"] : List Cell).length :=
  ⟨by decide,
    C4_repair_idempotent_normalizing.2.1 [some [some "a"], some [some "1"]]
      (some [some "1"]) (by decide) (some [some "a"]) (by decide)
      [some "1"] [some "a"] rfl rfl⟩

/-- C9 counterexample: a table whose only row is not a list is left entirely
unchanged by the repair block — the non-list row is not removed, refuting the
claim that any non-list row is removed from the table. -/
theorem C9_counterexample :
    repairRows [none] = [none] ∧ (none : Row) ∈ repairRows [none] := by
  decide

theorem length_normRows (rows : List Row) :
    (normRows rows).length = rows.countP (fun r => r.isSome) := by
  induction rows with
  | nil => rfl
  | cons r rs ih =>
    cases r <;> simp [normRows, List.filterMap_cons, List.countP_cons] at ih ⊢ <;>
      omega

/-- C9 (amended): during table repair, rows that are not lists or tuples are
removed provided at least one row is a list or tuple — so a repaired table
can have strictly fewer rows than the input — while a table none of whose
rows is a list or tuple keeps its rows unchanged. -/
theorem C9_nonlist_rows_dropped (rows : List Row) :
    ((∃ r ∈ rows, r ≠ none) →
      (repairRows rows).length = rows.countP (fun r => r.isSome) ∧
      ∀ r ∈ repairRows rows, r ≠ none) ∧
    ((∃ r ∈ rows, r ≠ none) → (∃ r ∈ rows, r = none) →
      (repairRows rows).length < rows.length) ∧
    ((∀ r ∈ rows, r = none) → repairRows rows = rows) := by
  refine ⟨?_, ?_, ?_⟩
  · intro hex
    have hnn : normRows rows ≠ [] := by
      intro h
      obtain ⟨r, hr, hne⟩ := hex
      exact hne (normRows_nil_iff.mp h r hr)
    cases hn : normRows rows with
    | nil => exact absurd hn hnn
    | cons q0 rest =>
      rw [repairRows_eq_map hn]
      constructor
      · have hl := length_normRows rows
        rw [hn] at hl
        simp only [List.length_map, List.length_cons] at hl ⊢
        omega
      · intro r hr
        simp only [List.mem_map] at hr
        obtain ⟨x, _, hx⟩ := hr
        simp [← hx]
  · intro hex hnone
    have hnn : normRows rows ≠ [] := by
      intro h
      obtain ⟨r, hr, hne⟩ := hex
      exact hne (normRows_nil_iff.mp h r hr)
    cases hn : normRows rows with
    | nil => exact absurd hn hnn
    | cons q0 rest =>
      rw [repairRows_eq_map hn]
      have hcount : rows.countP (fun r => r.isSome) < rows.length := by
        obtain ⟨r, hr, hrn⟩ := hnone
        rcases Nat.lt_or_ge (rows.countP (fun r => r.isSome)) rows.length with h | h
        · exact h
        · exfalso
          have hall := List.countP_eq_length.mp
            (Nat.le_antisymm (List.countP_le_length _) h)
          have := hall r hr
          simp [hrn] at this
      have := length_normRows rows
      rw [hn] at this
      simp only [List.length_map]
      omega
  · intro hall
    exact repairRows_eq_of_norm_nil (normRows_nil_iff.mpr hall)

/-- Witness for C9: with one list row and one non-list row, the repaired
table has one row (the non-list row is gone) and is strictly shorter. -/
theorem C9_nonlist_rows_dropped_witness :
    (repairRows [some [some "a"], none]).length = 1 ∧
    (repairRows [some [some "a"], none]).length < 2 := by
  have h := C9_nonlist_rows_dropped [some [some "a"], none]
  refine ⟨?_, ?_⟩
  · have := (h.1 ⟨some [some "a"], by decide, by decide⟩).1
    simpa using this
  · have := h.2.1 ⟨some [some "a"], by decide, by decide⟩ ⟨none, by decide, rfl⟩
    simpa using this

/-! ### Text-mode fallback and empty-result sentinels (claims C5, C8) -/

theorem validateContent_eq_nil_iff (cl : List ContentItem) :
    validateContent cl = [] ↔ cl = [] := by
  cases cl <;> simp [validateContent]

/-- C5: in text mode, when all structured parsing attempts fail (the parsed
`content` list is empty), the parser returns one Paragraph node per non-blank
line of the raw text; and for raw text with at least one non-blank line the
parser never returns an empty batch, whatever the structured attempts gave. -/
theorem C5_text_mode_fallback :
    (∀ text : String,
      parseContentTail [] text = (nonBlankLines text).map ContentItem.paragraph) ∧
    (∀ (cl : List ContentItem) (text : String), nonBlankLines text ≠ [] →
      parseContentTail cl text ≠ []) := by
  constructor
  · intro text
    simp [parseContentTail, validateContent]
  · intro cl text hnb
    cases cl with
    | nil =>
      simp only [parseContentTail, validateContent, List.map_nil, List.isEmpty_nil,
        if_true]
      simpa using hnb
    | cons c cs =>
      simp [parseContentTail, validateContent]

/-- Witness for C5: the spec example, raw noise with no JSON at all. -/
theorem C5_text_mode_fallback_witness :
    nonBlankLines "no json at all, just noise" ≠ [] ∧
    parseContentTail [] "no json at all, just noise" ≠ [] ∧
    parseContentTail [] "no json at all, just noise" =
      [ContentItem.paragraph "no json at all, just noise"] :=
  ⟨by decide, C5_text_mode_fallback.2 [] _ (by decide), by decide⟩

/-- C8: when the service responds but nothing is recognized — the parsed
content list is empty in text mode, the parsed table list empty in table
mode — `_process_one` returns a Failure outcome carrying the sentinel reason
`no_content` / `no_tables` (with the usage of the call preserved) instead of
raising. -/
theorem C8_empty_result_sentinels :
    (∀ (sc : String → List ContentItem) (raw : String) (u : Usage),
      parseContentTail (sc raw) raw = [] →
      processOneText sc (.ok raw u) = (some "no_content", none, some u)) ∧
    (∀ (st : String → List (String × List Row)) (raw : String) (u : Usage),
      parseTables (st raw) raw = [] →
      processOneTable st (.ok raw u) = (some "no_tables", none, some u)) := by
  constructor
  · intro sc raw u h
    simp [processOneText, h]
  · intro st raw u h
    simp [processOneTable, h]

/-- Witness for C8: a blank text-mode response and a structureless table-mode
response, both with failed structured attempts. -/
theorem C8_empty_result_sentinels_witness :
    parseContentTail [] "" = [] ∧
    parseTables [] "nothing" = [] ∧
    processOneText (fun _ => []) (.ok "" ⟨1, 2, 3⟩) = (some "no_content", none, some ⟨1, 2, 3⟩) ∧
    processOneTable (fun _ => []) (.ok "nothing" ⟨4, 5, 6⟩) =
      (some "no_tables", none, some ⟨4, 5, 6⟩) :=
  ⟨by decide, by decide,
    C8_empty_result_sentinels.1 (fun _ => []) "" ⟨1, 2, 3⟩ (by decide),
    C8_empty_result_sentinels.2 (fun _ => []) "nothing" ⟨4, 5, 6⟩ (by decide)⟩

/-! ### Applying the finish event to the task state (claim C3) -/

/-- A two-item batch whose run is stopped after the first item. -/
def c3Items : List (WorkItem Nat) :=
  [⟨"a", none, [1], none⟩, ⟨"b", none, [2], none⟩]

/-- The task state after the events of the stopped run of `c3Items` are
applied by the progress callback (stop observed at the second gate check). -/
def c3State : TaskState :=
  ((runSeq c3Items 2 0 (fun i => decide (1 ≤ i))).events).foldl applyCb (initTask 2 2 0)

/-- C3 counterexample: stopping a two-item batch after one item produces a
`finish` event with `done = 1` while the last known total is `2`; applying it
sets status to Completed but leaves `done` strictly below the total, refuting
the claim that `done` reaches at least the last known total. -/
theorem C3_counterexample :
    c3State.status = TaskStatus.completed ∧ c3State.total = 2 ∧ c3State.done = 1 ∧
      ¬ (c3State.total ≤ c3State.done) := by
  decide

/-- C3 (amended): applying the finish event sets the status to Completed and
sets `done` to the count reported by the event, falling back to the stored total
exactly when that count is zero; `done` hence reaches at least the last known
total whenever the reported count does, or is zero, but a batch stopped
mid-way finishes with `done` below the last known total. -/
theorem C3_finish_event (t : TaskState) (d tot : Nat) (u : Usage) :
    (applyCb t (.finish d tot u)).status = TaskStatus.completed ∧
    (applyCb t (.finish d tot u)).done = (if d = 0 then t.total else d) ∧
    (t.total ≤ d → t.total ≤ (applyCb t (.finish d tot u)).done) ∧
    (d = 0 → (applyCb t (.finish d tot u)).done = t.total) := by
  refine ⟨rfl, rfl, ?_, ?_⟩
  · intro h
    simp only [applyCb]
    split <;> omega
  · intro h
    simp [applyCb, h]

/-- Witness for C3: a full batch reporting `done = total` at finish. -/
theorem C3_finish_event_witness :
    (5 : Nat) ≤ 5 ∧ (5 : Nat) ≤ (applyCb (initTask 5 5 0) (.finish 5 5 ⟨0, 0, 0⟩)).done :=
  ⟨le_rfl, (C3_finish_event (initTask 5 5 0) 5 5 ⟨0, 0, 0⟩).2.2.1 le_rfl⟩

/-! ### Retry with exponential backoff (claim C6) -/

/-- The backoff sleeps performed for the transient attempts `a, a+1, ..., b-1`:
`(2 ** attempt) + jitter` for each. -/
def backoffSleeps (jitter : Nat → ℚ) (a b : Nat) : List ℚ :=
  (List.range (b - a)).map (fun k => 2 ^ (a + k) + jitter (a + k))

theorem backoffSleeps_cons {jitter : Nat → ℚ} {a b : Nat} (h : a < b) :
    backoffSleeps jitter a b = (2 ^ a + jitter a) :: backoffSleeps jitter (a + 1) b := by
  unfold backoffSleeps
  have hb : b - a = (b - (a + 1)) + 1 := by omega
  rw [hb, List.range_succ_eq_map]
  simp only [List.map_cons, List.map_map, Function.comp_def, Nat.add_zero, List.cons.injEq,
    true_and]
  apply List.map_congr_left
  intro k _
  have : a + (k + 1) = (a + 1) + k := by omega
  rw [this]

theorem callLoopAux_attempts_le {α : Type} (retries : Nat) (net : Nat → NetAttempt α)
    (jitter : Nat → ℚ) :
    ∀ (fuel attempt : Nat) (sleeps : List ℚ), retries - attempt = fuel →
      (callLoopAux retries net jitter attempt sleeps).attempts ≤
        max (retries + 1) (attempt + 1) := by
  intro fuel
  induction fuel with
  | zero =>
    intro attempt sleeps hf
    rw [callLoopAux]
    cases net attempt with
    | ok a => dsimp only; omega
    | permanent e => dsimp only; omega
    | transient e =>
      have hnot : ¬ attempt < retries := by omega
      simp only [hnot, if_false]
      omega
  | succ n ih =>
    intro attempt sleeps hf
    rw [callLoopAux]
    cases net attempt with
    | ok a => dsimp only; omega
    | permanent e => dsimp only; omega
    | transient e =>
      by_cases hlt : attempt < retries
      · simp only [hlt, if_true]
        have := ih (attempt + 1) (sleeps ++ [2 ^ attempt + jitter attempt]) (by omega)
        omega
      · simp only [hlt, if_false]
        omega

theorem callLoopAux_all_transient {α : Type} (retries : Nat) (net : Nat → NetAttempt α)
    (jitter : Nat → ℚ) :
    ∀ (fuel attempt : Nat) (sleeps : List ℚ), retries - attempt = fuel →
      attempt ≤ retries →
      (∀ i, attempt ≤ i → i ≤ retries → ∃ e, net i = .transient e) →
      ∀ e, net retries = NetAttempt.transient e →
      callLoopAux retries net jitter attempt sleeps =
        ⟨retries + 1, sleeps ++ backoffSleeps jitter attempt retries, .error e⟩ := by
  intro fuel
  induction fuel with
  | zero =>
    intro attempt sleeps hf ha _ e he
    have : attempt = retries := by omega
    subst this
    rw [callLoopAux, he]
    have : ¬ attempt < attempt := by omega
    simp [this, backoffSleeps]
  | succ n ih =>
    intro attempt sleeps hf ha hall e he
    have hlt : attempt < retries := by omega
    obtain ⟨e2, he2⟩ := hall attempt le_rfl (by omega)
    rw [callLoopAux, he2]
    simp only [hlt, if_true]
    rw [ih (attempt + 1) _ (by omega) (by omega)
      (fun i h1 h2 => hall i (by omega) h2) e he]
    rw [backoffSleeps_cons hlt]
    simp

theorem callLoopAux_permanent {α : Type} (retries : Nat) (net : Nat → NetAttempt α)
    (jitter : Nat → ℚ) :
    ∀ (fuel attempt : Nat) (sleeps : List ℚ), retries - attempt = fuel →
      ∀ k e, attempt ≤ k → k ≤ retries → net k = .permanent e →
      (∀ i, attempt ≤ i → i < k → ∃ e2, net i = .transient e2) →
      callLoopAux retries net jitter attempt sleeps =
        ⟨k + 1, sleeps ++ backoffSleeps jitter attempt k, .error e⟩ := by
  intro fuel
  induction fuel with
  | zero =>
    intro attempt sleeps hf k e hak hkr hk _
    have : attempt = retries := by omega
    subst this
    have : k = attempt := by omega
    subst this
    rw [callLoopAux, hk]
    simp [backoffSleeps]
  | succ n ih =>
    intro attempt sleeps hf k e hak hkr hk hbefore
    rcases Nat.eq_or_lt_of_le hak with heq | hlt
    · subst heq
      rw [callLoopAux, hk]
      simp [backoffSleeps]
    · obtain ⟨e2, he2⟩ := hbefore attempt le_rfl hlt
      have hltr : attempt < retries := by omega
      rw [callLoopAux, he2]
      simp only [hltr, if_true]
      rw [ih (attempt + 1) _ (by omega) k e (by omega) hkr hk
        (fun i h1 h2 => hbefore i (by omega) h2)]
      rw [backoffSleeps_cons hlt]
      simp

/-- C6: each extraction call makes at most `retries + 1` network attempts
(`retries` defaulting to 3); when every attempt fails transiently, the error
surfaces only after all `retries + 1` attempts, with a sleep of
`2 ** attempt + jitter(attempt)` between consecutive attempts; a
non-transient request failure at attempt `k` is raised immediately, after
exactly `k + 1` attempts and no further retry. -/
theorem C6_retry_backoff :
    (∀ {α : Type} (retries : Nat) (net : Nat → NetAttempt α) (jitter : Nat → ℚ),
      (callWithRetry retries net jitter).attempts ≤ retries + 1) ∧
    (∀ {α : Type} (retries : Nat) (net : Nat → NetAttempt α) (jitter : Nat → ℚ),
      (∀ i, i ≤ retries → ∃ e, net i = NetAttempt.transient e) →
      ∀ e, net retries = NetAttempt.transient e →
      callWithRetry retries net jitter =
        ⟨retries + 1, (List.range retries).map (fun i => 2 ^ i + jitter i), .error e⟩) ∧
    (∀ {α : Type} (retries : Nat) (net : Nat → NetAttempt α) (jitter : Nat → ℚ)
      (k : Nat) (e : String), k ≤ retries → net k = NetAttempt.permanent e →
      (∀ i, i < k → ∃ e2, net i = NetAttempt.transient e2) →
      callWithRetry retries net jitter =
        ⟨k + 1, (List.range k).map (fun i => 2 ^ i + jitter i), .error e⟩) ∧
    defaultRetries = 3 := by
  refine ⟨?_, ?_, ?_, rfl⟩
  · intro α retries net jitter
    have := callLoopAux_attempts_le retries net jitter retries 0 [] (by omega)
    simpa [callWithRetry] using this
  · intro α retries net jitter hall e he
    have := callLoopAux_all_transient retries net jitter retries 0 [] (by omega)
      (Nat.zero_le _) (fun i _ h2 => hall i h2) e he
    simpa [callWithRetry, backoffSleeps] using this
  · intro α retries net jitter k e hkr hk hbefore
    have := callLoopAux_permanent retries net jitter retries 0 [] (by omega) k e
      (Nat.zero_le _) hkr hk (fun i _ h2 => hbefore i h2)
    simpa [callWithRetry, backoffSleeps] using this

/-- Witness for C6: with the default retry count and an always-transient
network, four attempts run with sleeps 1, 2 and 4 seconds (zero jitter). -/
theorem C6_retry_backoff_witness :
    callWithRetry defaultRetries (fun _ => NetAttempt.transient (α := Unit) "t")
      (fun _ => 0) = ⟨4, [1, 2, 4], Except.error "t"⟩ := by
  have h := C6_retry_backoff.2.1 defaultRetries
    (fun _ => NetAttempt.transient (α := Unit) "t") (fun _ => 0)
    (fun i _ => ⟨"t", rfl⟩) "t" rfl
  rw [h]
  norm_num [defaultRetries, List.range_succ]

/-! ### Natural filename order (claim C10) -/

theorem charListLt_trans : ∀ (a b c : List Char),
    charListLt a b = true → charListLt b c = true → charListLt a c = true
  | _, b, [] => by
    intro _ h2
    cases b <;> simp [charListLt] at h2
  | [], b, c :: cs => by
    intro _ _
    simp [charListLt]
  | x :: xs, b, c :: cs => by
    intro h1 h2
    match b with
    | [] => simp [charListLt] at h1
    | y :: ys =>
      simp only [charListLt, Bool.or_eq_true, Bool.and_eq_true, decide_eq_true_eq] at h1 h2 ⊢
      rcases h1 with h1 | ⟨he1, h1r⟩
      · rcases h2 with h2 | ⟨he2, h2r⟩
        · exact Or.inl (Nat.lt_trans h1 h2)
        · subst he2
          exact Or.inl h1
      · subst he1
        rcases h2 with h2 | ⟨he2, h2r⟩
        · exact Or.inl h2
        · subst he2
          exact Or.inr ⟨rfl, charListLt_trans _ _ _ h1r h2r⟩

theorem charListLt_irrefl : ∀ a : List Char, charListLt a a = false
  | [] => rfl
  | x :: xs => by
    simp only [charListLt, Bool.or_eq_false_iff, Bool.and_eq_false_iff]
    refine ⟨by simp [Nat.lt_irrefl], Or.inr (charListLt_irrefl xs)⟩

theorem charListLt_trichotomy : ∀ a b : List Char,
    a = b ∨ charListLt a b = true ∨ charListLt b a = true
  | [], [] => Or.inl rfl
  | [], _ :: _ => Or.inr (Or.inl (by simp [charListLt]))
  | _ :: _, [] => Or.inr (Or.inr (by simp [charListLt]))
  | x :: xs, y :: ys => by
    rcases Nat.lt_trichotomy x.toNat y.toNat with h | h | h
    · refine Or.inr (Or.inl ?_)
      simp only [charListLt, Bool.or_eq_true, decide_eq_true_eq]
      exact Or.inl h
    · have hxy : x = y := by
        unfold Char.toNat at h
        exact Char.eq_of_val_eq (UInt32.toNat.inj h)
      subst hxy
      rcases charListLt_trichotomy xs ys with h2 | h2 | h2
      · exact Or.inl (by rw [h2])
      · refine Or.inr (Or.inl ?_)
        simp [charListLt, h2]
      · refine Or.inr (Or.inr ?_)
        simp [charListLt, h2]
    · refine Or.inr (Or.inr ?_)
      simp only [charListLt, Bool.or_eq_true, decide_eq_true_eq]
      exact Or.inl h

theorem charListLt_asymm {a b : List Char} (h : charListLt a b = true) :
    charListLt b a = false := by
  by_contra h2
  rw [Bool.not_eq_false] at h2
  have := charListLt_trans a b a h h2
  rw [charListLt_irrefl] at this
  exact Bool.false_ne_true this

theorem keyPartLt_trans : ∀ (a b c : KeyPart),
    keyPartLt a b = true → keyPartLt b c = true → keyPartLt a c = true := by
  intro a b c h1 h2
  cases a <;> cases b <;> cases c <;> simp_all [keyPartLt] <;>
    first
      | exact charListLt_trans _ _ _ h1 h2
      | omega

theorem keyPartLt_irrefl : ∀ a : KeyPart, keyPartLt a a = false := by
  intro a
  cases a <;> simp [keyPartLt, charListLt_irrefl, Nat.lt_irrefl]

theorem keyPartLt_trichotomy : ∀ a b : KeyPart,
    a = b ∨ keyPartLt a b = true ∨ keyPartLt b a = true := by
  intro a b
  cases a with
  | str sa =>
    cases b with
    | str sb =>
      rcases charListLt_trichotomy sa sb with h | h | h
      · exact Or.inl (by rw [h])
      · exact Or.inr (Or.inl (by simp [keyPartLt, h]))
      · exact Or.inr (Or.inr (by simp [keyPartLt, h]))
    | num nb => exact Or.inr (Or.inr (by simp [keyPartLt]))
  | num na =>
    cases b with
    | str sb => exact Or.inr (Or.inl (by simp [keyPartLt]))
    | num nb =>
      rcases Nat.lt_trichotomy na nb with h | h | h
      · exact Or.inr (Or.inl (by simp [keyPartLt, h]))
      · exact Or.inl (by rw [h])
      · exact Or.inr (Or.inr (by simp [keyPartLt, h]))

theorem keyListLt_trans : ∀ (a b c : List KeyPart),
    keyListLt a b = true → keyListLt b c = true → keyListLt a c = true
  | _, b, [] => by
    intro _ h2
    cases b <;> simp [keyListLt] at h2
  | [], b, c :: cs => by
    intro _ _
    simp [keyListLt]
  | x :: xs, b, c :: cs => by
    intro h1 h2
    match b with
    | [] => simp [keyListLt] at h1
    | y :: ys =>
      simp only [keyListLt, Bool.or_eq_true, Bool.and_eq_true, decide_eq_true_eq] at h1 h2 ⊢
      rcases h1 with h1 | ⟨he1, h1r⟩
      · rcases h2 with h2 | ⟨he2, h2r⟩
        · exact Or.inl (keyPartLt_trans _ _ _ h1 h2)
        · subst he2
          exact Or.inl h1
      · subst he1
        rcases h2 with h2 | ⟨he2, h2r⟩
        · exact Or.inl h2
        · subst he2
          exact Or.inr ⟨rfl, keyListLt_trans _ _ _ h1r h2r⟩

theorem keyListLt_irrefl : ∀ a : List KeyPart, keyListLt a a = false
  | [] => rfl
  | x :: xs => by
    simp only [keyListLt, Bool.or_eq_false_iff, Bool.and_eq_false_iff]
    exact ⟨keyPartLt_irrefl x, Or.inr (keyListLt_irrefl xs)⟩

theorem keyListLt_trichotomy : ∀ a b : List KeyPart,
    a = b ∨ keyListLt a b = true ∨ keyListLt b a = true
  | [], [] => Or.inl rfl
  | [], _ :: _ => Or.inr (Or.inl (by simp [keyListLt]))
  | _ :: _, [] => Or.inr (Or.inr (by simp [keyListLt]))
  | x :: xs, y :: ys => by
    rcases keyPartLt_trichotomy x y with h | h | h
    · subst h
      rcases keyListLt_trichotomy xs ys with h2 | h2 | h2
      · exact Or.inl (by rw [h2])
      · refine Or.inr (Or.inl ?_)
        simp [keyListLt, h2]
      · refine Or.inr (Or.inr ?_)
        simp [keyListLt, h2]
    · refine Or.inr (Or.inl ?_)
      simp [keyListLt, h]
    · refine Or.inr (Or.inr ?_)
      simp [keyListLt, h]

theorem keyListLt_asymm {a b : List KeyPart} (h : keyListLt a b = true) :
    keyListLt b a = false := by
  by_contra h2
  rw [Bool.not_eq_false] at h2
  have := keyListLt_trans a b a h h2
  rw [keyListLt_irrefl] at this
  exact Bool.false_ne_true this

theorem natLe_total : ∀ a b : String, natLe a b || natLe b a := by
  intro a b
  simp only [natLe, Bool.or_eq_true, Bool.not_eq_true']
  cases h : keyListLt (natural_key b) (natural_key a)
  · exact Or.inl rfl
  · exact Or.inr (keyListLt_asymm h)

theorem natLe_trans : ∀ a b c : String, natLe a b → natLe b c → natLe a c := by
  intro a b c h1 h2
  simp only [natLe, Bool.not_eq_true'] at h1 h2 ⊢
  by_contra h3
  rw [Bool.not_eq_false] at h3
  rcases keyListLt_trichotomy (natural_key a) (natural_key b) with he | hl | hl
  · rw [he] at h3
    rw [h2] at h3
    exact Bool.false_ne_true h3
  · have := keyListLt_trans _ _ _ h3 hl
    rw [h2] at this
    exact Bool.false_ne_true this
  · rw [h1] at hl
    exact Bool.false_ne_true hl

/-- C10: `process_images` orders its batch by natural filename order before
assigning sequence positions: the processing list is a permutation of the
supplied paths, it is sorted under the natural-key comparison (digit runs
numerically, other segments case-insensitively), and in particular
`img2.png` comes before `img10.png` whatever order the caller supplied. -/
theorem C10_natural_filename_order :
    (∀ names : List String, (sortImagesNatural names).Perm names) ∧
    (∀ names : List String,
      (sortImagesNatural names).Pairwise (fun a b => natLe a b = true)) ∧
    sortImagesNatural ["img10.png", "img2.png"] = ["img2.png", "img10.png"] ∧
    sortImagesNatural ["b10.png", "a2.png", "B2.png"] =
      ["a2.png", "B2.png", "b10.png"] := by
  refine ⟨?_, ?_, ?_, ?_⟩
  · intro names
    exact List.mergeSort_perm names natLe
  · intro names
    exact List.sorted_mergeSort natLe_trans natLe_total names
  · simp +decide [sortImagesNatural, List.mergeSort, List.merge]
  · simp +decide [sortImagesNatural, List.mergeSort, List.merge]

/-! ### Order restoration at pipeline end (claim C1) -/

theorem findIdx?_get_of_nodup {names : List String} (h : names.Nodup) :
    ∀ (i : Nat) (hi : i < names.length),
      names.findIdx? (fun n => n = names.get ⟨i, hi⟩) = some i := by
  induction names with
  | nil => intro i hi; exact absurd hi (by simp)
  | cons n ns ih =>
    intro i hi
    rcases List.nodup_cons.mp h with ⟨hn, hns⟩
    cases i with
    | zero => simp [List.findIdx?_cons]
    | succ j =>
      have hj : j < ns.length := by simpa using hi
      have hget : (n :: ns).get ⟨j + 1, hi⟩ = ns.get ⟨j, hj⟩ := rfl
      rw [hget, List.findIdx?_cons]
      have hne : decide (n = ns.get ⟨j, hj⟩) = false := by
        simp only [decide_eq_false_iff_not]
        intro hcon
        exact hn (hcon ▸ List.get_mem ns j hj)
      rw [hne]
      simp [List.findIdx?_succ]
      exact ih hns j hj

theorem orderKey_get_of_nodup {names : List String} (h : names.Nodup)
    (i : Nat) (hi : i < names.length) :
    orderKey names (names.get ⟨i, hi⟩) = i := by
  unfold orderKey
  rw [findIdx?_get_of_nodup h i hi]

theorem pairwise_orderKey_of_nodup {names : List String} (h : names.Nodup) :
    names.Pairwise (fun a b => orderKey names a < orderKey names b) := by
  rw [List.pairwise_iff_getElem]
  intro i j hi hj hij
  have h1 : orderKey names names[i] = i := orderKey_get_of_nodup h i hi
  have h2 : orderKey names names[j] = j := orderKey_get_of_nodup h j hj
  rw [h1, h2]
  exact hij

theorem sorted_le_perm_sorted_lt_unique {β : Type} (key : β → Nat) :
    ∀ (l₁ l₂ : List β), l₁.Perm l₂ →
      l₁.Pairwise (fun a b => key a ≤ key b) →
      l₂.Pairwise (fun a b => key a < key b) → l₁ = l₂ := by
  intro l₁
  induction l₁ with
  | nil =>
    intro l₂ hp _ _
    exact (hp.nil_eq).symm.symm ▸ rfl
  | cons x xs ih =>
    intro l₂ hp hle hlt
    cases l₂ with
    | nil => exact absurd hp.symm.nil_eq (by simp)
    | cons y ys =>
      have hxy : x = y := by
        have hxmem : x ∈ y :: ys := hp.subset (List.mem_cons_self x xs)
        rcases List.mem_cons.mp hxmem with h | hxys
        · exact h
        · exfalso
          have hyx : key y < key x := (List.pairwise_cons.mp hlt).1 x hxys
          have hymem : y ∈ x :: xs := hp.symm.subset (List.mem_cons_self y ys)
          rcases List.mem_cons.mp hymem with h2 | hyxs
          · subst h2
            omega
          · have : key x ≤ key y := (List.pairwise_cons.mp hle).1 y hyxs
            omega
      subst hxy
      have hp' : xs.Perm ys := hp.cons_inv
      rw [ih ys hp' (List.pairwise_cons.mp hle).2 (List.pairwise_cons.mp hlt).2]

theorem filterMap_if_sublist_map {β γ : Type} (p : β → Prop) [DecidablePred p]
    (g : β → γ) :
    ∀ l : List β, (l.filterMap (fun a => if p a then some (g a) else none)).Sublist (l.map g)
  | [] => List.Sublist.slnil
  | a :: l => by
    simp only [List.filterMap_cons, List.map_cons]
    by_cases h : p a
    · simp only [h, if_true]
      exact List.Sublist.cons₂ _ (filterMap_if_sublist_map p g l)
    · simp only [h, if_false]
      exact List.Sublist.cons _ (filterMap_if_sublist_map p g l)

theorem successes_names_sublist {α : Type} [DecidableEq α]
    (items : List (WorkItem α)) :
    ((successes items).map Prod.fst).Sublist (items.map WorkItem.name) := by
  unfold successes
  rw [List.map_filterMap]
  have heq : (fun it : WorkItem α =>
      (if isSuccess it then some (it.name, it.data) else none).map Prod.fst) =
      (fun it : WorkItem α => if isSuccess it then some it.name else none) := by
    funext it
    by_cases h : isSuccess it <;> simp [h]
  rw [heq]
  exact filterMap_if_sublist_map _ _ items

/-- C1: the final output handed to the writer is exactly the successful
outcomes sorted ascending by the original sequence index: for any
subsequence `S` of the successful outcomes (in submission order) and any
completion order `results` of it, the sort of line 784/961 restores `S`
itself — independent of the completion permutation, with failed or
never-completed items absent. -/
theorem C1_ordered_successful_output {α : Type} [DecidableEq α]
    (items : List (WorkItem α)) (hnd : (items.map WorkItem.name).Nodup)
    (S results : List (String × List α))
    (hS : S.Sublist (successes items)) (hperm : results.Perm S) :
    sortResults (items.map WorkItem.name) results = S := by
  set names := items.map WorkItem.name with hnames
  have hsp : (sortResults names results).Perm S :=
    (List.mergeSort_perm results _).trans hperm
  have hsorted : (sortResults names results).Pairwise
      (fun a b => orderKey names a.1 ≤ orderKey names b.1) := by
    have htrans : ∀ a b c : String × List α,
        (decide (orderKey names a.1 ≤ orderKey names b.1)) = true →
        (decide (orderKey names b.1 ≤ orderKey names c.1)) = true →
        (decide (orderKey names a.1 ≤ orderKey names c.1)) = true := by
      intro a b c h1 h2
      simp only [decide_eq_true_eq] at h1 h2 ⊢
      omega
    have htotal : ∀ a b : String × List α,
        ((decide (orderKey names a.1 ≤ orderKey names b.1)) ||
          (decide (orderKey names b.1 ≤ orderKey names a.1))) = true := by
      intro a b
      simp only [Bool.or_eq_true, decide_eq_true_eq]
      omega
    have h := List.sorted_mergeSort htrans htotal results
    exact h.imp (fun hab => by simpa using hab)
  have hlt : S.Pairwise (fun a b => orderKey names a.1 < orderKey names b.1) := by
    have hsub : (S.map Prod.fst).Sublist names :=
      (hS.map Prod.fst).trans (successes_names_sublist items)
    have hpw : (S.map Prod.fst).Pairwise (fun a b => orderKey names a < orderKey names b) :=
      (pairwise_orderKey_of_nodup hnd).sublist hsub
    rw [List.pairwise_map] at hpw
    exact hpw
  exact sorted_le_perm_sorted_lt_unique (fun p => orderKey names p.1)
    (sortResults names results) S hsp hsorted hlt

/-- Witness for C1: a three-item batch whose middle item failed, with the two
successes arriving in reversed completion order. -/
theorem C1_ordered_successful_output_witness :
    sortResults ["a", "b", "c"] [("c", [3]), ("a", [1])] =
      [("a", ([1] : List Nat)), ("c", [3])] := by
  have hs : successes (α := Nat)
      [⟨"a", none, [1], none⟩, ⟨"b", some "e", [], none⟩, ⟨"c", none, [3], none⟩] =
      [("a", [1]), ("c", [3])] := by decide
  have h := C1_ordered_successful_output (α := Nat)
    [⟨"a", none, [1], none⟩, ⟨"b", some "e", [], none⟩, ⟨"c", none, [3], none⟩]
    (by decide) [("a", [1]), ("c", [3])] [("c", [3]), ("a", [1])]
    (hs ▸ List.Sublist.refl _) (List.Perm.swap _ _ _)
  simpa using h

/-! ### The sequential driver loop (claims C2, C7) -/

/-- The step events one in-order pass over `items` emits when the done
counter starts at `done`: each item advances the counter by one and is
reported with its error and usage, successful or not. -/
def stepsFrom {α : Type} (total : Nat) : Nat → List (WorkItem α) → List Event
  | _, [] => []
  | done, it :: rest =>
    .step (done + 1) total it.name it.err it.usage :: stepsFrom total (done + 1) rest

/-- Exact characterization of the sequential loop under a control gate whose
first `k` reads say go and whose read `k` (if the loop gets that far) says
stop: the loop processes exactly the first `min k (length)` items and then
emits `finish`. -/
theorem runSeqAux_spec {α : Type} [DecidableEq α] (total : Nat) (gate : Nat → Bool)
    (k : Nat) (hk : ∀ i, i < k → gate i = false) :
    ∀ (items : List (WorkItem α)) (seen : List String) (gi done : Nat) (usage : Usage)
      (results : List (String × List α)) (events : List Event),
      (gate k = true ∨ items.length + gi ≤ k) →
      (∀ it ∈ items, it.name ∉ seen) → (items.map WorkItem.name).Nodup → gi ≤ k →
      runSeqAux total gate items seen gi done usage results events =
        ⟨done + min (k - gi) items.length,
         (items.take (k - gi)).foldl (fun u it => addUsage u it.usage) usage,
         results ++ successes (items.take (k - gi)),
         events ++ stepsFrom total done (items.take (k - gi)) ++
           [.finish (done + min (k - gi) items.length) total
             ((items.take (k - gi)).foldl (fun u it => addUsage u it.usage) usage)]⟩ := by
  intro items
  induction items with
  | nil =>
    intro seen gi done usage results events _ _ _ _
    simp [runSeqAux, successes, stepsFrom]
  | cons it rest ih =>
    intro seen gi done usage results events hstop hnot hnd hgi
    have hmem : it.name ∉ seen := hnot it (List.mem_cons_self _ _)
    rw [runSeqAux]
    rw [if_neg hmem]
    rcases Nat.lt_or_ge gi k with hlt | hge
    · rw [hk gi hlt]
      simp only [Bool.false_eq_true, if_false]
      have hnotin : ∀ x ∈ rest, x.name ∉ it.name :: seen := by
        intro x hx
        simp only [List.mem_cons, not_or]
        constructor
        · intro hcon
          have : it.name ∈ rest.map WorkItem.name := by
            rw [← hcon]
            exact List.mem_map_of_mem _ hx
          exact (List.nodup_cons.mp (by simpa using hnd)).1 this
        · exact hnot x (List.mem_cons_of_mem _ hx)
      have hnd' : (rest.map WorkItem.name).Nodup :=
        (List.nodup_cons.mp (by simpa using hnd)).2
      have hstop' : gate k = true ∨ rest.length + (gi + 1) ≤ k := by
        rcases hstop with h | h
        · exact Or.inl h
        · right
          simp only [List.length_cons] at h
          omega
      rw [ih (it.name :: seen) (gi + 1) (done + 1) (addUsage usage it.usage) _ _
        hstop' hnotin hnd' (by omega)]
      have hks : k - gi = (k - (gi + 1)) + 1 := by omega
      rw [hks, List.take_succ_cons]
      have hmin : min ((k - (gi + 1)) + 1) (it :: rest).length
          = min (k - (gi + 1)) rest.length + 1 := by
        simp only [List.length_cons]
        omega
      rw [hmin]
      simp only [List.foldl_cons, successes, List.filterMap_cons, stepsFrom]
      by_cases hsucc : isSuccess it
      · simp only [hsucc, if_true]
        simp only [RunOut.mk.injEq]
        refine ⟨by omega, by trivial, by simp, ?_⟩
        simp only [List.append_assoc, List.cons_append, List.nil_append]
        have : done + 1 + min (k - (gi + 1)) rest.length
            = done + (min (k - (gi + 1)) rest.length + 1) := by omega
        rw [this]
      · simp only [hsucc, if_false]
        simp only [RunOut.mk.injEq]
        refine ⟨by omega, by trivial, by simp, ?_⟩
        simp only [List.append_assoc, List.cons_append, List.nil_append]
        have : done + 1 + min (k - (gi + 1)) rest.length
            = done + (min (k - (gi + 1)) rest.length + 1) := by omega
        rw [this]
    · have hgieq : gi = k := Nat.le_antisymm hgi hge
      subst hgieq
      have hgate : gate gi = true := by
        rcases hstop with h | h
        · exact h
        · simp only [List.length_cons] at h
          omega
      rw [hgate]
      simp [Nat.sub_self, successes, stepsFrom]

/-- The sequential driver under a gate that reports stop from read `k` on:
exactly `min k n` items are processed, each emitting one `step`, and a final
`finish` carries the partial done count. -/
theorem runSeq_spec {α : Type} [DecidableEq α] (items : List (WorkItem α))
    (embedded pages : Nat) (gate : Nat → Bool) (k : Nat)
    (hk : ∀ i, i < k → gate i = false)
    (hstop : gate k = true ∨ items.length ≤ k)
    (hnd : (items.map WorkItem.name).Nodup) :
    runSeq items embedded pages gate =
      ⟨min k items.length,
       (items.take k).foldl (fun u it => addUsage u it.usage) ⟨0, 0, 0⟩,
       successes (items.take k),
       .start items.length embedded pages ::
         (stepsFrom items.length 0 (items.take k) ++
           [.finish (min k items.length) items.length
             ((items.take k).foldl (fun u it => addUsage u it.usage) ⟨0, 0, 0⟩)])⟩ := by
  unfold runSeq
  rw [runSeqAux_spec items.length gate k hk items [] 0 0 ⟨0, 0, 0⟩ [] _
    (by simpa using hstop) (by simp) hnd (Nat.zero_le _)]
  simp

/-! ### Error isolation and the task state (claim C7) -/

theorem stepsFold_errors {α : Type} (total : Nat) :
    ∀ (items : List (WorkItem α)) (done : Nat) (t : TaskState),
      ((stepsFrom total done items).foldl applyCb t).errors =
        t.errors ++ errorEntries items := by
  intro items
  induction items with
  | nil => intro done t; simp [stepsFrom, errorEntries]
  | cons it rest ih =>
    intro done t
    simp only [stepsFrom, List.foldl_cons]
    rw [ih]
    cases hE : it.err with
    | none => simp [applyCb, errorEntries, List.filterMap_cons, hE]
    | some s =>
      by_cases hs : s = "" <;>
        simp [applyCb, errorEntries, List.filterMap_cons, hE, hs]

theorem stepsFold_done {α : Type} (total : Nat) :
    ∀ (items : List (WorkItem α)) (done : Nat) (t : TaskState), items ≠ [] →
      ((stepsFrom total done items).foldl applyCb t).done = done + items.length := by
  intro items
  induction items with
  | nil => intro _ _ h; exact absurd rfl h
  | cons it rest ih =>
    intro done t _
    simp only [stepsFrom, List.foldl_cons]
    cases rest with
    | nil => simp [stepsFrom, applyCb]
    | cons y ys =>
      rw [ih (done + 1) _ (by simp)]
      simp only [List.length_cons]
      omega

theorem stepsFold_status {α : Type} (total : Nat) :
    ∀ (items : List (WorkItem α)) (done : Nat) (t : TaskState), items ≠ [] →
      ((stepsFrom total done items).foldl applyCb t).status = TaskStatus.in_progress := by
  intro items
  induction items with
  | nil => intro _ _ h; exact absurd rfl h
  | cons it rest ih =>
    intro done t _
    simp only [stepsFrom, List.foldl_cons]
    cases rest with
    | nil => simp [stepsFrom, applyCb]
    | cons y ys => rw [ih (done + 1) _ (by simp)]

theorem stepsFold_total {α : Type} (total : Nat) :
    ∀ (items : List (WorkItem α)) (done : Nat) (t : TaskState),
      ((stepsFrom total done items).foldl applyCb t).total = t.total := by
  intro items
  induction items with
  | nil => intro done t; simp [stepsFrom]
  | cons it rest ih =>
    intro done t
    simp only [stepsFrom, List.foldl_cons]
    rw [ih]
    simp [applyCb]

/-- C7: the failure of a single item never aborts the batch.  With no stop
request, the sequential driver processes every item: each item — failed or
not — emits a `step` that advances `done` by one, the results are exactly the
successes, and `finish` still fires.  Applying the emitted events to the task
state records exactly the failed items in the error list, drives `done` to
the item count, and completes the task. -/
theorem C7_failure_never_aborts {α : Type} [DecidableEq α]
    (items : List (WorkItem α)) (embedded pages tot0 : Nat)
    (hnd : (items.map WorkItem.name).Nodup) :
    runSeq items embedded pages (fun _ => false) =
      ⟨items.length,
       items.foldl (fun u it => addUsage u it.usage) ⟨0, 0, 0⟩,
       successes items,
       .start items.length embedded pages ::
         (stepsFrom items.length 0 items ++
           [.finish items.length items.length
             (items.foldl (fun u it => addUsage u it.usage) ⟨0, 0, 0⟩)])⟩ ∧
    (((runSeq items embedded pages (fun _ => false)).events.foldl applyCb
        (initTask tot0 embedded pages)).errors = errorEntries items ∧
     ((runSeq items embedded pages (fun _ => false)).events.foldl applyCb
        (initTask tot0 embedded pages)).done = items.length ∧
     ((runSeq items embedded pages (fun _ => false)).events.foldl applyCb
        (initTask tot0 embedded pages)).status = TaskStatus.completed) := by
  have hrun := runSeq_spec items embedded pages (fun _ => false) items.length
    (fun _ _ => rfl) (Or.inr le_rfl) hnd
  rw [List.take_length, Nat.min_self] at hrun
  refine ⟨hrun, ?_⟩
  rw [hrun]
  simp only [List.foldl_cons, List.foldl_append]
  set t1 : TaskState := applyCb (initTask tot0 embedded pages)
    (.start items.length embedded pages) with ht1
  have ht1fields : t1.errors = [] ∧ t1.total = items.length ∧ t1.done = 0 ∧
      t1.status = TaskStatus.in_progress := by
    simp [ht1, applyCb, initTask]
  set t2 : TaskState := (stepsFrom items.length 0 items).foldl applyCb t1 with ht2
  have ht2err : t2.errors = errorEntries items := by
    rw [ht2, stepsFold_errors, ht1fields.1]
    simp
  refine ⟨?_, ?_, ?_⟩
  · simpa [applyCb] using ht2err
  · cases hit : items with
    | nil =>
      subst hit
      simp only [stepsFrom, List.foldl_nil] at ht2
      simp [applyCb, ht2, ht1fields.2.1, ht1fields.2.2.1]
    | cons y ys =>
      have hdone : t2.done = items.length := by
        rw [ht2, stepsFold_done _ items _ _ (by simp [hit])]
        simp
      have hne : items.length ≠ 0 := by simp [hit]
      simp [applyCb, hdone, hne]
  · simp [applyCb]

/-- Witness for C7: a two-item batch whose second item fails; the batch still
completes with one success, one recorded error, and `done = 2`. -/
theorem C7_failure_never_aborts_witness :
    (runSeq (α := Nat) [⟨"a", none, [1], none⟩, ⟨"b", some "boom", [], none⟩]
      2 0 (fun _ => false)).results = [("a", [1])] ∧
    ((runSeq (α := Nat) [⟨"a", none, [1], none⟩, ⟨"b", some "boom", [], none⟩]
      2 0 (fun _ => false)).events.foldl applyCb (initTask 2 2 0)).errors =
        [("b", "boom")] ∧
    ((runSeq (α := Nat) [⟨"a", none, [1], none⟩, ⟨"b", some "boom", [], none⟩]
      2 0 (fun _ => false)).events.foldl applyCb (initTask 2 2 0)).done = 2 ∧
    ((runSeq (α := Nat) [⟨"a", none, [1], none⟩, ⟨"b", some "boom", [], none⟩]
      2 0 (fun _ => false)).events.foldl applyCb (initTask 2 2 0)).status =
        TaskStatus.completed := by
  have h := C7_failure_never_aborts (α := Nat)
    [⟨"a", none, [1], none⟩, ⟨"b", some "boom", [], none⟩] 2 0 2 (by decide)
  refine ⟨?_, ?_, ?_, ?_⟩
  · rw [h.1]
    decide
  · rw [h.2.1]
    decide
  · rw [h.2.2.1]
    decide
  · exact h.2.2.2

/-! ### The concurrent driver loop (claim C2) -/

/-- Safety facts about the completion loop, relative to the state it starts
from: the submission log only grows; every new log entry was made at a gate
check that said go; the done counter grows by at most one per item that was
pending or in flight; and the emitted events are the starting events, then
step events only for submitted items, then a final `finish` carrying the
final done count and usage. -/
def concInv {α : Type} (gate : Nat → Bool) (total done₀ pendLen runLen : Nat)
    (dlog : List (Nat × String)) (events : List Event) (out : ConcOut α) : Prop :=
  (∀ x ∈ dlog, x ∈ out.dlog) ∧
  (∀ e ∈ out.dlog, e ∈ dlog ∨ gate e.1 = false) ∧
  out.done ≤ done₀ + pendLen + runLen ∧
  ∃ tail, out.events = events ++ tail ++ [.finish out.done total out.usageTotals] ∧
    ∀ ev ∈ tail, ∃ d img err u, ev = Event.step d total img err u ∧
      img ∈ out.dlog.map Prod.snd

theorem mem_map_snd_mono {dlog dlog' : List (Nat × String)}
    (hmono : ∀ x ∈ dlog, x ∈ dlog') {nm : String}
    (h : nm ∈ dlog.map Prod.snd) : nm ∈ dlog'.map Prod.snd := by
  obtain ⟨x, hx, hxe⟩ := List.mem_map.mp h
  exact List.mem_map.mpr ⟨x, hmono x hx, hxe⟩

theorem procLoop_invariants {α : Type} [DecidableEq α] (total : Nat)
    (gate : Nat → Bool) (pick : Nat → Nat) :
    ∀ (m t gi done : Nat) (usage : Usage) (results : List (String × List α))
      (events : List Event) (dlog : List (Nat × String))
      (pending running : List (WorkItem α)),
      pending.length + running.length ≤ m →
      (∀ it ∈ running, it.name ∈ dlog.map Prod.snd) →
      concInv gate total done pending.length running.length dlog events
        (procLoop total gate pick t gi done usage results events dlog pending running) := by
  intro m
  induction m with
  | zero =>
    intro t gi done usage results events dlog pending running hm _
    have hrun : running = [] := by
      cases running with
      | nil => rfl
      | cons a l => simp at hm
    subst hrun
    rw [procLoop.eq_def]
    exact ⟨fun x hx => hx, fun e he => Or.inl he, by simp, [], by simp, by simp⟩
  | succ m ih =>
    intro t gi done usage results events dlog pending running hm hsub
    cases running with
    | nil =>
      rw [procLoop.eq_def]
      exact ⟨fun x hx => hx, fun e he => Or.inl he, by simp, [], by simp, by simp⟩
    | cons r0 rs =>
      rw [procLoop.eq_def]
      dsimp only
      set i := pick t % (r0 :: rs).length with hi
      set it := (r0 :: rs).get ⟨i, Nat.mod_lt _ (Nat.succ_pos rs.length)⟩ with hit
      have hitmem : it ∈ r0 :: rs := List.get_mem _ _ _
      have hitname : it.name ∈ dlog.map Prod.snd := hsub it hitmem
      have hltlen : i < (r0 :: rs).length := Nat.mod_lt _ (Nat.succ_pos rs.length)
      have hlenerase : ((r0 :: rs).eraseIdx i).length = rs.length := by
        rw [List.length_eraseIdx_of_lt hltlen]
        simp
      by_cases hg : gate gi = true
      · rw [if_pos hg]
        refine ⟨fun x hx => hx, fun e he => Or.inl he, by simp; omega,
          [.step (done + 1) total it.name it.err it.usage], by simp, ?_⟩
        intro ev hev
        simp only [List.mem_singleton] at hev
        exact ⟨done + 1, it.name, it.err, it.usage, hev, hitname⟩
      · rw [if_neg hg]
        have hsub' : ∀ x ∈ (r0 :: rs).eraseIdx i, x.name ∈ dlog.map Prod.snd :=
          fun x hx => hsub x ((List.eraseIdx_sublist _ i).mem hx)
        cases pending with
        | nil =>
          have hrec := ih (t + 1) (gi + 1) (done + 1) (addUsage usage it.usage)
            (if isSuccess it then results ++ [(it.name, it.data)] else results)
            (events ++ [.step (done + 1) total it.name it.err it.usage])
            dlog [] ((r0 :: rs).eraseIdx i)
            (by simp only [List.length_nil, List.length_cons, hlenerase] at hm ⊢; omega)
            hsub'
          obtain ⟨hmono, hnew, hdone, tail, hev, htail⟩ := hrec
          refine ⟨hmono, hnew,
            Nat.le_trans hdone
              (by simp only [List.length_nil, List.length_cons, hlenerase]; omega),
            .step (done + 1) total it.name it.err it.usage :: tail, ?_, ?_⟩
          · rw [hev]
            simp only [List.append_assoc, List.cons_append, List.singleton_append,
              List.nil_append]
          · intro ev hev2
            rcases List.mem_cons.mp hev2 with h | h
            · exact ⟨done + 1, it.name, it.err, it.usage, h,
                mem_map_snd_mono hmono hitname⟩
            · exact htail ev h
        | cons p ps =>
          have hsub2 : ∀ x ∈ (r0 :: rs).eraseIdx i ++ [p],
              x.name ∈ (dlog ++ [(gi, p.name)]).map Prod.snd := by
            intro x hx
            rcases List.mem_append.mp hx with h | h
            · exact mem_map_snd_mono (fun y hy => List.mem_append_left _ hy) (hsub' x h)
            · simp only [List.mem_singleton] at h
              subst h
              simp
          have hrec := ih (t + 1) (gi + 1) (done + 1) (addUsage usage it.usage)
            (if isSuccess it then results ++ [(it.name, it.data)] else results)
            (events ++ [.step (done + 1) total it.name it.err it.usage])
            (dlog ++ [(gi, p.name)]) ps ((r0 :: rs).eraseIdx i ++ [p])
            (by simp only [List.length_cons, List.length_append, List.length_nil,
              hlenerase] at hm ⊢; omega)
            hsub2
          obtain ⟨hmono, hnew, hdone, tail, hev, htail⟩ := hrec
          have hmono' : ∀ x ∈ dlog, x ∈ (procLoop total gate pick (t + 1) (gi + 1)
              (done + 1) (addUsage usage it.usage)
              (if isSuccess it then results ++ [(it.name, it.data)] else results)
              (events ++ [.step (done + 1) total it.name it.err it.usage])
              (dlog ++ [(gi, p.name)]) ps ((r0 :: rs).eraseIdx i ++ [p])).dlog :=
            fun x hx => hmono x (List.mem_append_left _ hx)
          refine ⟨hmono', ?_,
            Nat.le_trans hdone
              (by simp only [List.length_cons, List.length_append, List.length_nil,
                hlenerase]; omega),
            .step (done + 1) total it.name it.err it.usage :: tail, ?_, ?_⟩
          · intro e he
            rcases hnew e he with h | h
            · rcases List.mem_append.mp h with h2 | h2
              · exact Or.inl h2
              · simp only [List.mem_singleton] at h2
                subst h2
                exact Or.inr (by simpa using hg)
            · exact Or.inr h
          · rw [hev]
            simp only [List.append_assoc, List.cons_append, List.singleton_append,
              List.nil_append]
          · intro ev hev2
            rcases List.mem_cons.mp hev2 with h | h
            · exact ⟨done + 1, it.name, it.err, it.usage, h,
                mem_map_snd_mono hmono' hitname⟩
            · exact htail ev h

theorem fillLoop_spec {α : Type} (w : Nat) (gate : Nat → Bool) :
    ∀ (pending running : List (WorkItem α)) (gi : Nat) (dlog : List (Nat × String)),
      (∀ it ∈ running, it.name ∈ dlog.map Prod.snd) →
      (∀ x ∈ dlog, x ∈ (fillLoop w gate pending running gi dlog).dlog) ∧
      (∀ e ∈ (fillLoop w gate pending running gi dlog).dlog,
        e ∈ dlog ∨ gate e.1 = false) ∧
      (∀ it ∈ (fillLoop w gate pending running gi dlog).running,
        it.name ∈ (fillLoop w gate pending running gi dlog).dlog.map Prod.snd) ∧
      (fillLoop w gate pending running gi dlog).pending.length +
        (fillLoop w gate pending running gi dlog).running.length ≤
          pending.length + running.length := by
  intro pending
  induction pending with
  | nil =>
    intro running gi dlog hsub
    rw [fillLoop]
    by_cases h1 : running.length < w <;> by_cases h2 : gate gi = true <;>
      simp only [h1, h2, if_true, if_false] <;>
      exact ⟨fun x hx => hx, fun e he => Or.inl he, hsub, by simp⟩
  | cons p ps ih =>
    intro running gi dlog hsub
    rw [fillLoop]
    by_cases h1 : running.length < w
    · by_cases h2 : gate gi = true
      · simp only [h1, h2, if_true]
        exact ⟨fun x hx => hx, fun e he => Or.inl he, hsub, by simp⟩
      · have hg2 : gate gi = false := by simpa using h2
        simp only [h1, hg2, if_true, Bool.false_eq_true, if_false]
        have hsub' : ∀ it ∈ running ++ [p],
            it.name ∈ (dlog ++ [(gi, p.name)]).map Prod.snd := by
          intro x hx
          rcases List.mem_append.mp hx with h | h
          · exact mem_map_snd_mono (fun y hy => List.mem_append_left _ hy) (hsub x h)
          · simp only [List.mem_singleton] at h
            subst h
            simp
        obtain ⟨hmono, hnew, hrun, hlen⟩ := ih (running ++ [p]) (gi + 1)
          (dlog ++ [(gi, p.name)]) hsub'
        refine ⟨fun x hx => hmono x (List.mem_append_left _ hx), ?_, hrun, ?_⟩
        · intro e he
          rcases hnew e he with h | h
          · rcases List.mem_append.mp h with h3 | h3
            · exact Or.inl h3
            · simp only [List.mem_singleton] at h3
              subst h3
              exact Or.inr (by simpa using h2)
          · exact Or.inr h
        · simp only [List.length_append, List.length_cons, List.length_nil] at hlen ⊢
          omega
    · simp only [h1, if_false]
      exact ⟨fun x hx => hx, fun e he => Or.inl he, hsub, by simp⟩

/-- C2: stop semantics.  Sequential path (`max_workers <= 1`): when the gate
says go for the first `k` reads and stop from read `k` on, the driver
processes exactly the first `min k N` items — no item beyond them is
processed (dropped, not deferred), no further `step` is emitted after the
stop is observed — and still emits a final `finish` with `done = min k N ≤ N`.
Concurrent path: the driver submits an item only right after a gate check
that said go, emits `step` events only for submitted items, its done count
never exceeds `N`, and its event stream ends with a `finish` carrying the
final done count. -/
theorem C2_stop_semantics :
    (∀ {α : Type} [DecidableEq α] (items : List (WorkItem α)) (embedded pages : Nat)
      (gate : Nat → Bool) (k : Nat),
      (∀ i, i < k → gate i = false) → gate k = true →
      (items.map WorkItem.name).Nodup →
      runSeq items embedded pages gate =
        ⟨min k items.length,
         (items.take k).foldl (fun u it => addUsage u it.usage) ⟨0, 0, 0⟩,
         successes (items.take k),
         .start items.length embedded pages ::
           (stepsFrom items.length 0 (items.take k) ++
             [.finish (min k items.length) items.length
               ((items.take k).foldl (fun u it => addUsage u it.usage) ⟨0, 0, 0⟩)])⟩) ∧
    (∀ {α : Type} [DecidableEq α] (w : Nat) (items : List (WorkItem α))
      (embedded pages : Nat) (gate : Nat → Bool) (pick : Nat → Nat),
      ∀ x ∈ (runConc w items embedded pages gate pick).dlog, gate x.1 = false) ∧
    (∀ {α : Type} [DecidableEq α] (w : Nat) (items : List (WorkItem α))
      (embedded pages : Nat) (gate : Nat → Bool) (pick : Nat → Nat),
      (runConc w items embedded pages gate pick).done ≤ items.length) ∧
    (∀ {α : Type} [DecidableEq α] (w : Nat) (items : List (WorkItem α))
      (embedded pages : Nat) (gate : Nat → Bool) (pick : Nat → Nat),
      ∃ tail, (runConc w items embedded pages gate pick).events =
        .start items.length embedded pages :: (tail ++
          [.finish (runConc w items embedded pages gate pick).done items.length
            (runConc w items embedded pages gate pick).usageTotals]) ∧
        ∀ ev ∈ tail, ∃ d img err u, ev = Event.step d items.length img err u ∧
          img ∈ ((runConc w items embedded pages gate pick).dlog.map Prod.snd)) := by
  have hconc : ∀ {α : Type} [DecidableEq α] (w : Nat) (items : List (WorkItem α))
      (embedded pages : Nat) (gate : Nat → Bool) (pick : Nat → Nat),
      (∀ x ∈ (runConc w items embedded pages gate pick).dlog, gate x.1 = false) ∧
      (runConc w items embedded pages gate pick).done ≤ items.length ∧
      (∃ tail, (runConc w items embedded pages gate pick).events =
        .start items.length embedded pages :: (tail ++
          [.finish (runConc w items embedded pages gate pick).done items.length
            (runConc w items embedded pages gate pick).usageTotals]) ∧
        ∀ ev ∈ tail, ∃ d img err u, ev = Event.step d items.length img err u ∧
          img ∈ ((runConc w items embedded pages gate pick).dlog.map Prod.snd)) := by
    intro α _ w items embedded pages gate pick
    obtain ⟨hfmono, hfnew, hfrun, hflen⟩ :=
      fillLoop_spec w gate items [] 0 [] (by simp)
    set f := fillLoop w gate items [] 0 [] with hf
    have hrc : runConc w items embedded pages gate pick =
        procLoop items.length gate pick 0 f.gi 0 ⟨0, 0, 0⟩ []
          [.start items.length embedded pages] f.dlog f.pending f.running := rfl
    obtain ⟨hpmono, hpnew, hpdone, tail, hpev, hptail⟩ :=
      procLoop_invariants items.length gate pick (f.pending.length + f.running.length)
        0 f.gi 0 ⟨0, 0, 0⟩ [] [.start items.length embedded pages] f.dlog
        f.pending f.running le_rfl hfrun
    rw [hrc]
    refine ⟨?_, ?_, tail, ?_, ?_⟩
    · intro x hx
      rcases hpnew x hx with h | h
      · rcases hfnew x h with h2 | h2
        · simp at h2
        · exact h2
      · exact h
    · refine Nat.le_trans hpdone ?_
      simpa using hflen
    · rw [hpev]
      simp
    · intro ev hev
      obtain ⟨d, img, err, u, heq, himg⟩ := hptail ev hev
      exact ⟨d, img, err, u, heq, himg⟩
  refine ⟨?_, ?_, ?_, ?_⟩
  · intro α _ items embedded pages gate k hk hkk hnd
    exact runSeq_spec items embedded pages gate k hk (Or.inl hkk) hnd
  · intro α _ w items embedded pages gate pick
    exact (hconc w items embedded pages gate pick).1
  · intro α _ w items embedded pages gate pick
    exact (hconc w items embedded pages gate pick).2.1
  · intro α _ w items embedded pages gate pick
    exact (hconc w items embedded pages gate pick).2.2

/-- Witness for C2: a two-item sequential batch stopped after one item, and a
three-item concurrent batch with width two stopped after two completions. -/
theorem C2_stop_semantics_witness :
    runSeq (α := Nat) [⟨"a", none, [1], none⟩, ⟨"b", none, [2], none⟩] 2 0
        (fun i => decide (1 ≤ i)) =
      ⟨1, ⟨0, 0, 0⟩, [("a", [1])],
       [.start 2 2 0, .step 1 2 "a" none none, .finish 1 2 ⟨0, 0, 0⟩]⟩ ∧
    (runConc (α := Nat) 2
      [⟨"a", none, [1], none⟩, ⟨"b", none, [2], none⟩, ⟨"c", none, [3], none⟩]
      3 0 (fun i => decide (2 ≤ i)) (fun _ => 0)).done ≤ 3 ∧
    (∀ x ∈ (runConc (α := Nat) 2
      [⟨"a", none, [1], none⟩, ⟨"b", none, [2], none⟩, ⟨"c", none, [3], none⟩]
      3 0 (fun i => decide (2 ≤ i)) (fun _ => 0)).dlog,
      (fun i => decide (2 ≤ i)) x.1 = false) := by
  refine ⟨?_, ?_, ?_⟩
  · have h := C2_stop_semantics.1 (α := Nat)
      [⟨"a", none, [1], none⟩, ⟨"b", none, [2], none⟩] 2 0
      (fun i => decide (1 ≤ i)) 1
      (by intro i hi; simp; omega) (by decide) (by decide)
    rw [h]
    decide
  · exact C2_stop_semantics.2.2.1 (α := Nat) 2
      [⟨"a", none, [1], none⟩, ⟨"b", none, [2], none⟩, ⟨"c", none, [3], none⟩]
      3 0 (fun i => decide (2 ≤ i)) (fun _ => 0)
  · exact C2_stop_semantics.2.1 (α := Nat) 2
      [⟨"a", none, [1], none⟩, ⟨"b", none, [2], none⟩, ⟨"c", none, [3], none⟩]
      3 0 (fun i => decide (2 ≤ i)) (fun _ => 0)

end OCRPipeline
